import Mathlib

/-!
Verification of the CSV parsing, record mapping, caching and fetch
orchestration of the Elevate-26 repository (src/lib/speakersData.ts and
src/lib/soldOutData.ts).  Strings are modelled as lists of characters;
the JavaScript functions are translated into executable Lean functions.
-/

namespace Elevate

/-- Whitespace test modelling the characters removed by the JavaScript
trim method on the ASCII range: space, tab, line feed, carriage return,
vertical tab and form feed. -/
def isWS (c : Char) : Bool :=
  c = ' ' || c = '\t' || c = '\n' || c = '\r' ||
    c = Char.ofNat 11 || c = Char.ofNat 12

/-- Model of the JavaScript trim: drop leading and trailing whitespace. -/
def trim (l : List Char) : List Char :=
  ((l.dropWhile isWS).reverse.dropWhile isWS).reverse

/-- Model of the JavaScript split on a single separator character.
The split of the empty string is the singleton list holding the empty
string, as in JavaScript. -/
def splitOnChar (sep : Char) : List Char → List (List Char)
  | [] => [[]]
  | c :: rest =>
    if c = sep then [] :: splitOnChar sep rest
    else
      match splitOnChar sep rest with
      | [] => [[c]]
      | r :: rs => (c :: r) :: rs

/-- Replace every carriage-return-line-feed pair, and every remaining lone
carriage return, by a line feed — the first two replace steps of the field
clean-up in speakersData parseCSVLine. -/
def crlfToLf : List Char → List Char
  | [] => []
  | '\r' :: '\n' :: rest => '\n' :: crlfToLf rest
  | '\r' :: rest => '\n' :: crlfToLf rest
  | c :: rest => c :: crlfToLf rest

/-- Worker for collapseLf; the flag records whether the scan stands inside
a run of line feeds whose single replacement space was already emitted. -/
def collapseLfAux : Bool → List Char → List Char
  | _, [] => []
  | skip, '\n' :: rest =>
    if skip then collapseLfAux true rest else ' ' :: collapseLfAux true rest
  | _, c :: rest => c :: collapseLfAux false rest

/-- Replace every maximal run of line feeds by a single space — the third
replace step of the field clean-up in speakersData parseCSVLine. -/
def collapseLf (l : List Char) : List Char := collapseLfAux false l

/-- Replace every doubled quote by a single quote, as the escaped-quote
decoding step does. -/
def undouble : List Char → List Char
  | [] => []
  | '"' :: '"' :: rest => '"' :: undouble rest
  | c :: rest => c :: undouble rest

/-- State produced by the character scan shared by both CSV line
functions: the fields pushed so far, the pending field, the quote flag,
and the input left unread when a line feed outside quotes stops the scan
(empty when the whole input was consumed). -/
structure ScanResult where
  fields : List (List Char)
  current : List Char
  inQuotes : Bool
  remaining : List Char
deriving DecidableEq, Repr

/-- The character scan of parseCSVLine, shared verbatim by
speakersData.ts and soldOutData.ts: a quote toggles the quote flag unless
it is a doubled quote inside quotes, which is decoded to a literal quote;
a comma outside quotes pushes the trimmed pending field; a carriage
return outside quotes is skipped; a line feed outside quotes stops the
scan; every other character is appended to the pending field. -/
def scanCSV : List Char → List Char → Bool → ScanResult
  | [], cur, q => ⟨[], cur, q, []⟩
  | '"' :: '"' :: rest, cur, true => scanCSV rest (cur ++ ['"']) true
  | '"' :: rest, cur, q => scanCSV rest cur (!q)
  | x :: rest, cur, q =>
    if x = ',' && !q then
      let r := scanCSV rest [] q
      ⟨trim cur :: r.fields, r.current, r.inQuotes, r.remaining⟩
    else if x = '\r' && !q then scanCSV rest cur q
    else if x = '\n' && !q then ⟨[], cur, q, x :: rest⟩
    else scanCSV rest (cur ++ [x]) q

/-- The field clean-up map at the end of speakersData parseCSVLine: trim,
strip one layer of outer quotes (decoding doubled quotes when stripping),
normalise carriage returns to line feeds, collapse line-feed runs to a
single space, and trim again. -/
def normalizeField (f : List Char) : List Char :=
  let f1 := trim f
  let f2 :=
    if f1.head? = some '"' && f1.getLast? = some '"' then
      undouble ((f1.drop 1).dropLast)
    else f1
  trim (collapseLf (crlfToLf f2))

/-- parseCSVLine of speakersData.ts: scan the line, always push the final
pending field, and clean every field. -/
def parseCSVLine (line : List Char) : List (List Char) :=
  let r := scanCSV line [] false
  (r.fields ++ [trim r.current]).map normalizeField

/-- parseCSVLine of soldOutData.ts: scan the line and push the final
pending field only when it is non-empty; no clean-up map is applied. -/
def soldOutParseCSVLine (line : List Char) : List (List Char) :=
  let r := scanCSV line [] false
  if r.current.isEmpty then r.fields else r.fields ++ [trim r.current]

/-- Number of quote characters in a line, as counted by the logical-line
accumulation loop of parseCSVData. -/
def countQuotes (l : List Char) : Nat := l.countP (fun c => c = '"')

/-- The logical-line accumulation loop of parseCSVData: physical lines
are appended (with a line-feed separator once the buffer is non-empty)
until the buffer holds an even number of quotes, at which point the
buffer is emitted; a final leftover buffer is emitted only when its trim
is non-empty. -/
def buildLines : List (List Char) → List Char → List (List Char)
  | [], cur => if (trim cur).isEmpty then [] else [cur]
  | l :: rest, cur =>
    let cur2 := if cur.isEmpty then l else cur ++ '\n' :: l
    if countQuotes cur2 % 2 = 0 then cur2 :: buildLines rest []
    else buildLines rest cur2

/-- parseCSVData of speakersData.ts: split the text on line feeds,
re-assemble logical lines by quote parity, and parse each logical line. -/
def parseCSVData (csvText : List Char) : List (List (List Char)) :=
  (buildLines (splitOnChar '\n' csvText) []).map parseCSVLine

/-- Character class of the capture groups in the Google Drive URL
patterns: ASCII letters, digits, underscore and hyphen. -/
def isIdChar (c : Char) : Bool :=
  ('a' ≤ c && c ≤ 'z') || ('A' ≤ c && c ≤ 'Z') ||
    ('0' ≤ c && c ≤ '9') || c = '_' || c = '-'

/-- Model of the JavaScript includes on strings: does the second list
contain the first as a contiguous sublist. -/
def listContains (sub : List Char) : List Char → Bool
  | [] => sub.isEmpty
  | c :: rest => sub.isPrefixOf (c :: rest) || listContains sub rest

/-- Model of an unanchored regular-expression search for a literal
pattern followed by a non-empty run of id characters; returns the run
captured at the first matching position, as the match calls in
convertGoogleDriveUrl do. -/
def matchAfter (pat : List Char) : List Char → Option (List Char)
  | [] => none
  | c :: rest =>
    if pat.isPrefixOf (c :: rest) then
      let idc := ((c :: rest).drop pat.length).takeWhile isIdChar
      if idc.isEmpty then matchAfter pat rest else some idc
    else matchAfter pat rest

def driveDomain : List Char := "drive.google.com".toList

/-- The file-id extraction of convertGoogleDriveUrl: the three URL
patterns are tried in order. -/
def extractFileId (url : List Char) : Option (List Char) :=
  match matchAfter ("/file/d/".toList) url with
  | some f => some f
  | none =>
    match matchAfter ("id=".toList) url with
    | some f => some f
    | none => matchAfter ("/open?id=".toList) url

/-- convertGoogleDriveUrl of speakersData.ts at its default export
format (the only format used at the call site inside the record mapper):
return non-Drive URLs unchanged, try the three file-id patterns in
order, and rebuild a direct view URL when an id is found. -/
def convertGoogleDriveUrl (url : List Char) : List Char :=
  if url.isEmpty || !listContains driveDomain url then url
  else
    match extractFileId url with
    | none => url
    | some f => ("https://drive.google.com/uc?export=view&id=".toList) ++ f

/-- The Speaker record of speakersData.ts, with strings as character
lists and the optional contact link as an Option. -/
structure Speaker where
  name : List Char
  title : List Char
  company : List Char
  image : List Char
  linkedin : Option (List Char)
deriving DecidableEq, Repr

/-- The per-row body of the record mapper inside
fetchSpeakersFromGoogleSheets: reject rows with fewer than four cells,
pad to five cells, trim the five fields, reject rows whose name, title
or image trims to empty, convert Drive image URLs, and default an empty
contact link to absence. -/
def mapSpeakerRow (row : List (List Char)) : Option Speaker :=
  if row.length < 4 then none
  else
    let row5 := row ++ List.replicate (5 - row.length) []
    let name := trim (row5.getD 0 [])
    let title := trim (row5.getD 1 [])
    let company := trim (row5.getD 2 [])
    let image := trim (row5.getD 3 [])
    let linkedin := trim (row5.getD 4 [])
    if name.isEmpty || title.isEmpty || image.isEmpty then none
    else
      some
        { name := name
          title := title
          company := company
          image :=
            if listContains driveDomain image then convertGoogleDriveUrl image
            else image
          linkedin := if linkedin.isEmpty then none else some linkedin }

/-- The cache entry persisted under the fixed key: the record batch and
its creation timestamp. -/
structure CacheEntry where
  data : List Speaker
  timestamp : Int
deriving DecidableEq, Repr

/-- Five minutes in milliseconds. -/
def cacheDuration : Int := 5 * 60 * 1000

/-- getCachedData of speakersData.ts over a well-formed storage slot:
a fresh entry is returned with the slot untouched; an expired entry is
removed and absence is returned. -/
def getCachedData (slot : Option CacheEntry) (now : Int) :
    Option (List Speaker) × Option CacheEntry :=
  match slot with
  | none => (none, none)
  | some e =>
    if now - e.timestamp < cacheDuration then (some e.data, some e)
    else (none, none)

/-- setCachedData of speakersData.ts: store the batch with the current
time. -/
def setCachedData (data : List Speaker) (now : Int) : Option CacheEntry :=
  some ⟨data, now⟩

/-- The static fallback speaker list bundled inside
fetchSpeakersFromGoogleSheets. -/
def fallbackSpeakers : List Speaker :=
  [ { name := "Seeram Sambasiva Rao IAS".toList
      title := "Special Secretary (E & ITD) / Chairman,".toList
      company := "Kerala State IT Mission".toList
      image := "/speakers/speaker_1.jpg".toList
      linkedin := none }
  , { name := "Dr.Jayasankar Prasad C".toList
      title := "Director,".toList
      company := "CMD".toList
      image := "/speakers/speaker_15.jpg".toList
      linkedin := some "https://www.linkedin.com/in/jayasankar-prasad-c-b5459bb".toList }
  , { name := "Anoop Ambika".toList
      title := "CEO,".toList
      company := "Kerala Start-up Mission".toList
      image := "/speakers/speaker_2.jpg".toList
      linkedin := some "https://www.linkedin.com/in/anoopambika".toList }
  , { name := "Sreekumar V".toList
      title := "Secretary, GTech & Centre Head,".toList
      company := "Tata Elxsi".toList
      image := "/speakers/speaker_3.jpg".toList
      linkedin := some "https://www.linkedin.com/in/sreekumarv".toList }
  , { name := "Col. Sanjeev Nair (Retd.)".toList
      title := "CEO,".toList
      company := "Technopark".toList
      image := "/speakers/speaker_4.jpg".toList
      linkedin := some "https://www.linkedin.com/in/sanjeevnair13".toList }
  , { name := "Deepu S Nath".toList
      title := "Managing Director,".toList
      company := "Faya".toList
      image := "/speakers/speaker_5.jpg".toList
      linkedin := some "https://www.linkedin.com/in/deepusnath".toList }
  , { name := "Raj Gopal R".toList
      title := "Deputy Vice President & Regional Head,".toList
      company := "Federal Bank".toList
      image := "/speakers/speaker_16.jpg".toList
      linkedin := none }
  , { name := "Nisha Gopinath".toList
      title := "Vice President and Head of HR,".toList
      company := "IBM India and South Asia".toList
      image := "/speakers/speaker_6.jpg".toList
      linkedin := some "https://www.linkedin.com/in/nisha-gopinath-4087651".toList }
  , { name := "Charles Godwin".toList
      title := "HR Leader,".toList
      company := "Zoho Corporation".toList
      image := "/speakers/speaker_7.jpg".toList
      linkedin := some "https://www.linkedin.com/in/charlesgodwin".toList }
  , { name := "Magical Rafi".toList
      title := "Founder & Chief Mentor,".toList
      company := "Magic of Change".toList
      image := "/speakers/speaker_8.jpg".toList
      linkedin := some "https://www.linkedin.com/in/mohammedrafinlptrainer".toList }
  , { name := "Saurabh Singh".toList
      title := "Consulting and Capability,".toList
      company := "SHRM India".toList
      image := "/speakers/speaker_9.jpg".toList
      linkedin := some "https://www.linkedin.com/in/learnsingh".toList }
  , { name := "Karthika Nair S".toList
      title := "Associate Director".toList
      company := "".toList
      image := "/speakers/speaker_13.jpg".toList
      linkedin := none }
  , { name := "Jayan Nair".toList
      title := "Chief People Officer,".toList
      company := "IBS Software".toList
      image := "/speakers/speaker_10.jpg".toList
      linkedin := some "https://www.linkedin.com/in/jayan-nair-0b11874".toList }
  , { name := "Manoj Elanjickal".toList
      title := "Director - People & Culture,".toList
      company := "H&R Block India".toList
      image := "/speakers/speaker_11.jpg".toList
      linkedin := some "https://www.linkedin.com/in/manojelanjickal".toList }
  , { name := "Varun Palat".toList
      title := "Deputy Vice President - HR,".toList
      company := "Federal Bank".toList
      image := "/speakers/speaker_12.jpg".toList
      linkedin := some "https://www.linkedin.com/in/varun-palat-18312912b".toList }
  , { name := "Aditi Radhakrishnan".toList
      title := "Consultant & Coach,".toList
      company := "Mitara Consulting Services".toList
      image := "/speakers/speaker_14.jpg".toList
      linkedin := some "https://www.linkedin.com/in/aditiradhakrishnan".toList }
  , { name := "Dr. Thomas George K ".toList
      title := "Director,".toList
      company := "LEAD College (Autonomous)".toList
      image := "/speakers/speaker_17.jpg".toList
      linkedin := some "https://www.linkedin.com/in/thomasgeorgek".toList } ]

/-- Outcome of the network retrieval attempt inside the try block of
fetchSpeakersFromGoogleSheets: failure covers a network error, the
timeout abort, and a non-success HTTP status after both URL attempts
(each of which throws and lands in the catch block); success carries the
body text. -/
inductive FetchOutcome where
  | failure : FetchOutcome
  | success : List Char → FetchOutcome
deriving DecidableEq

/-- The body of the try block of fetchSpeakersFromGoogleSheets together
with its catch block, entered once the cache check has not returned:
on failure the catch block re-reads the store (returning whatever entry
is still there, else the fallback); on success the text is checked for
emptiness, parsed, mapped, and the batch is cached unless every row was
dropped. -/
def fetchProceed (slot2 : Option CacheEntry) (now : Int)
    (outcome : FetchOutcome) : List Speaker × Option CacheEntry :=
  match outcome with
  | .failure =>
    match slot2 with
    | some e => (e.data, slot2)
    | none => (fallbackSpeakers, slot2)
  | .success csv =>
    if (trim csv).isEmpty then (fallbackSpeakers, slot2)
    else
      let parsedRows := parseCSVData csv
      if parsedRows.length ≤ 1 then (fallbackSpeakers, slot2)
      else
        let speakers := (parsedRows.drop 1).filterMap mapSpeakerRow
        if speakers.isEmpty then (fallbackSpeakers, slot2)
        else (speakers, setCachedData speakers now)

/-- fetchSpeakersFromGoogleSheets of speakersData.ts as a pure function
of the force-refresh flag, the storage slot, the clock, and the fetch
outcome; it returns the speaker list and the slot left behind.  Totality
of this function models the non-throwing contract: every branch,
including every failure, produces a value. -/
def fetchSpeakersModel (forceRefresh : Bool) (slot : Option CacheEntry)
    (now : Int) (outcome : FetchOutcome) : List Speaker × Option CacheEntry :=
  let checked :=
    if forceRefresh then ((none : Option (List Speaker)), (none : Option CacheEntry))
    else getCachedData slot now
  match checked with
  | (some d, slot2) => (d, slot2)
  | (none, slot2) => fetchProceed slot2 now outcome

/-- Model of the JavaScript toLowerCase on the ASCII range. -/
def jsToLower (c : Char) : Char :=
  if 'A' ≤ c && c ≤ 'Z' then Char.ofNat (c.toNat + 32) else c

/-- Model of the JavaScript toUpperCase on the ASCII range. -/
def jsToUpper (c : Char) : Char :=
  if 'a' ≤ c && c ≤ 'z' then Char.ofNat (c.toNat - 32) else c

/-- The line filter of fetchSoldOutStatus: split on line feeds and keep
the lines whose trim is non-empty. -/
def soldOutLines (csv : List Char) : List (List Char) :=
  (splitOnChar '\n' csv).filter (fun l => !(trim l).isEmpty)

/-- fetchSoldOutStatus of soldOutData.ts as a pure function of the fetch
outcome (absence models a network error or non-success response): find
the Sold Out column in the header by case-insensitive trimmed match,
read that cell of the first data row, and compare its trimmed upper-case
value with the token TRUE; every failure path yields false. -/
def fetchSoldOutStatusModel (outcome : Option (List Char)) : Bool :=
  match outcome with
  | none => false
  | some csv =>
    if (soldOutLines csv).length < 2 then false
    else
      match (soldOutParseCSVLine ((soldOutLines csv).getD 0 [])).findIdx?
          (fun h => trim (h.map jsToLower) = "sold out".toList) with
      | none => false
      | some i =>
        ((soldOutParseCSVLine ((soldOutLines csv).getD 1 [])).get? i).map
            (fun cell => (trim cell).map jsToUpper) =
          some ("TRUE".toList)

/-- Double every quote character, the cell-encoding step of the standard
CSV serializer named by the round-trip property. -/
def doubleQ : List Char → List Char
  | [] => []
  | '"' :: rest => '"' :: '"' :: doubleQ rest
  | c :: rest => c :: doubleQ rest

/-- Modelled from the spec: one cell of the standard CSV serializer of
the round-trip property — a cell holding a comma or a quote is wrapped
in quotes with embedded quotes doubled, any other cell is emitted
verbatim. -/
def serializeCell (c : List Char) : List Char :=
  if c.contains ',' || c.contains '"' then '"' :: (doubleQ c ++ ['"'])
  else c

/-- Modelled from the spec: one row of the standard CSV serializer,
cells joined by commas. -/
def serializeRow : List (List Char) → List Char
  | [] => []
  | [c] => serializeCell c
  | c :: cs => serializeCell c ++ ',' :: serializeRow cs

/-- Modelled from the spec: the standard CSV serializer of the
round-trip property, rows joined by line feeds. -/
def csvSerialize : List (List (List Char)) → List Char
  | [] => []
  | [r] => serializeRow r
  | r :: rs => serializeRow r ++ '\n' :: csvSerialize rs

/-- A cell that both starts and ends with a quote character (a single
quote character counts): exactly the cells whose reparse after
serialization strips a quote layer again. -/
def quoteBracketed (c : List Char) : Bool :=
  c.head? = some '"' && c.getLast? = some '"'

/-- The shape invariant every cell produced by the speakers parser
satisfies: trimmed, and free of line feeds and carriage returns. -/
def cellOK (c : List Char) : Prop :=
  trim c = c ∧ '\n' ∉ c ∧ '\r' ∉ c

theorem trim_eq_rdrop (l : List Char) :
    trim l = List.rdropWhile isWS (l.dropWhile isWS) := rfl

theorem dropWhile_trim (l : List Char) :
    (trim l).dropWhile isWS = trim l := by
  rw [List.dropWhile_eq_self_iff]
  intro hl
  have hl2 : 0 < (List.rdropWhile isWS (l.dropWhile isWS)).length := hl
  have hpre := List.rdropWhile_prefix isWS (l.dropWhile isWS)
  have hlen : 0 < (l.dropWhile isWS).length :=
    Nat.lt_of_lt_of_le hl2 hpre.length_le
  have hget :=
    hpre.get_eq (n := 0) (by simpa using hl2)
  have hnot := List.dropWhile_get_zero_not isWS l hlen
  show ¬ isWS ((List.rdropWhile isWS (l.dropWhile isWS)).get
    ⟨0, by simpa using hl2⟩) = true
  rw [hget]
  exact hnot

theorem trim_idem (l : List Char) : trim (trim l) = trim l := by
  rw [trim_eq_rdrop (trim l), dropWhile_trim, trim_eq_rdrop,
    List.rdropWhile_idempotent]

theorem mem_trim {a : Char} {l : List Char} (h : a ∈ trim l) : a ∈ l := by
  rw [trim_eq_rdrop] at h
  have h1 : a ∈ l.dropWhile isWS :=
    (List.rdropWhile_prefix isWS (l.dropWhile isWS)).sublist.mem h
  exact (List.dropWhile_suffix isWS).sublist.mem h1

theorem all_ws_of_trim_eq_nil {l : List Char} (h : trim l = []) :
    ∀ c ∈ l, isWS c := by
  rw [trim_eq_rdrop, List.rdropWhile_eq_nil_iff] at h
  intro c hc
  rw [← List.takeWhile_append_dropWhile (p := isWS) (l := l)] at hc
  rcases List.mem_append.mp hc with h1 | h2
  · exact List.mem_takeWhile_imp h1
  · exact h c h2

theorem trim_eq_self {l : List Char}
    (h1 : ∀ a, l.head? = some a → isWS a = false)
    (h2 : ∀ a, l.getLast? = some a → isWS a = false) : trim l = l := by
  have hd : l.dropWhile isWS = l := by
    rw [List.dropWhile_eq_self_iff]
    intro hl
    have hhd : l.head? = some (l.get ⟨0, hl⟩) := by
      cases l with
      | nil => simp at hl
      | cons a t => rfl
    have := h1 _ hhd
    simp only [List.get_eq_getElem] at this ⊢
    simp [this]
  rw [trim_eq_rdrop, hd, List.rdropWhile_eq_self_iff]
  intro hl
  simp [h2 _ (List.getLast?_eq_getLast_of_ne_nil hl)]

theorem splitOnChar_cons (sep c : Char) (rest : List Char) :
    splitOnChar sep (c :: rest) =
      if c = sep then [] :: splitOnChar sep rest
      else
        match splitOnChar sep rest with
        | [] => [[c]]
        | r :: rs => (c :: r) :: rs := rfl

theorem splitOnChar_ne_nil (sep : Char) : ∀ l, splitOnChar sep l ≠ []
  | [] => by simp [splitOnChar]
  | c :: rest => by
    rw [splitOnChar_cons]
    by_cases hc : c = sep
    · simp [hc]
    · rw [if_neg hc]
      cases h : splitOnChar sep rest <;> simp

theorem splitOnChar_append_sep (sep : Char) (s : List Char) :
    splitOnChar sep (s ++ [sep]) = splitOnChar sep s ++ [[]] := by
  induction s with
  | nil => simp [splitOnChar]
  | cons c rest ih =>
    rw [List.cons_append, splitOnChar_cons, splitOnChar_cons, ih]
    by_cases hc : c = sep
    · rw [if_pos hc, if_pos hc]
      rfl
    · rw [if_neg hc, if_neg hc]
      cases h : splitOnChar sep rest with
      | nil => exact absurd h (splitOnChar_ne_nil sep rest)
      | cons r rs => simp

theorem countQuotes_cons (c : Char) (l : List Char) :
    countQuotes (c :: l) = (if c = '"' then 1 else 0) + countQuotes l := by
  simp only [countQuotes, List.countP_cons]
  by_cases hc : c = '"' <;> simp [hc] <;> omega

theorem countQuotes_append (a b : List Char) :
    countQuotes (a ++ b) = countQuotes a + countQuotes b :=
  List.countP_append _ _ _

theorem sum_countQuotes_split (s : List Char) :
    ((splitOnChar '\n' s).map countQuotes).sum = countQuotes s := by
  induction s with
  | nil => simp [splitOnChar, countQuotes]
  | cons c rest ih =>
    rw [splitOnChar_cons]
    by_cases hc : c = '\n'
    · rw [if_pos hc, List.map_cons, List.sum_cons, ih, countQuotes_cons]
      subst hc
      simp [countQuotes]
    · rw [if_neg hc]
      cases h : splitOnChar '\n' rest with
      | nil => exact absurd h (splitOnChar_ne_nil _ rest)
      | cons r rs =>
        rw [h] at ih
        rw [List.map_cons, List.sum_cons] at ih ⊢
        rw [countQuotes_cons c r, countQuotes_cons c rest]
        omega

theorem buildLines_nil (cur : List Char) :
    buildLines [] cur = if (trim cur).isEmpty then [] else [cur] := rfl

theorem buildLines_cons (l : List Char) (rest : List (List Char))
    (cur : List Char) :
    buildLines (l :: rest) cur =
      if countQuotes (if cur.isEmpty then l else cur ++ '\n' :: l) % 2 = 0
      then (if cur.isEmpty then l else cur ++ '\n' :: l) :: buildLines rest []
      else buildLines rest (if cur.isEmpty then l else cur ++ '\n' :: l) := rfl

theorem buildLines_append_nil_line :
    ∀ (L : List (List Char)) (cur : List Char),
      (cur = [] ∨ countQuotes cur % 2 = 1) →
      (countQuotes cur + (L.map countQuotes).sum) % 2 = 0 →
      buildLines (L ++ [[]]) cur = buildLines L cur ++ [[]]
  | [], cur, hinv, hpar => by
    have hcur : cur = [] := by
      rcases hinv with h | h
      · exact h
      · simp at hpar; omega
    subst hcur
    simp [buildLines, countQuotes, trim]
  | l :: L, cur, hinv, hpar => by
    rw [List.cons_append, buildLines_cons, buildLines_cons]
    have hq : countQuotes (if cur.isEmpty then l else cur ++ '\n' :: l) =
        countQuotes cur + countQuotes l := by
      by_cases hce : cur.isEmpty
      · rw [if_pos hce]
        have hnil : cur = [] := by simpa [List.isEmpty_iff] using hce
        simp [hnil, countQuotes]
      · rw [if_neg hce, countQuotes_append, countQuotes_cons]
        simp
    rw [List.map_cons, List.sum_cons] at hpar
    by_cases he : countQuotes (if cur.isEmpty then l else cur ++ '\n' :: l) % 2 = 0
    · rw [if_pos he, if_pos he,
        buildLines_append_nil_line L [] (Or.inl rfl) (by
          simp only [countQuotes, List.countP_nil]
          omega)]
      rfl
    · rw [if_neg he, if_neg he]
      exact buildLines_append_nil_line L _ (Or.inr (by omega)) (by omega)

/-- C2 counterexample: the empty input parses to one row holding one empty
cell, not to zero rows, and the input consisting of the letter a followed by
a line feed parses to two rows, the trailing empty physical line yielding a
row of its own — both contradicting the claim. -/
theorem c2_counterexample :
    parseCSVData [] = [[[]]] ∧
      parseCSVData ['a', '\n'] = [[['a']], [[]]] := by
  exact ⟨by decide, by decide⟩

/-- C2 amended: the empty input yields exactly one row holding one empty
cell, and appending a line feed to any text holding an even number of quote
characters appends exactly one further row holding one empty cell, produced
from the trailing empty physical line. -/
theorem c2_amended :
    parseCSVData [] = [[[]]] ∧
      ∀ s, countQuotes s % 2 = 0 →
        parseCSVData (s ++ ['\n']) = parseCSVData s ++ [[[]]] := by
  constructor
  · decide
  · intro s hs
    unfold parseCSVData
    rw [splitOnChar_append_sep, buildLines_append_nil_line _ _ (Or.inl rfl)
      (by rw [sum_countQuotes_split]; simpa [countQuotes] using hs)]
    simp only [List.map_append]
    have hone : parseCSVLine [] = [[]] := by decide
    rw [List.map_cons, List.map_nil, hone]

/-- C2 amended, witness: the appended-line-feed case at the concrete input a. -/
theorem c2_amended_witness :
    parseCSVData ['a', '\n'] = parseCSVData ['a'] ++ [[[]]] :=
  c2_amended.2 ['a'] (by decide)

theorem fallbackSpeakers_ne_nil : fallbackSpeakers ≠ [] := by
  simp [fallbackSpeakers]

theorem matchAfter_cons (pat : List Char) (c : Char) (rest : List Char) :
    matchAfter pat (c :: rest) =
      if pat.isPrefixOf (c :: rest) then
        if (((c :: rest).drop pat.length).takeWhile isIdChar).isEmpty
        then matchAfter pat rest
        else some (((c :: rest).drop pat.length).takeWhile isIdChar)
      else matchAfter pat rest := rfl

theorem matchAfter_some {pat : List Char} :
    ∀ {l f : List Char}, matchAfter pat l = some f →
      f ≠ [] ∧ ∀ c ∈ f, isIdChar c
  | [], f, h => by simp [matchAfter] at h
  | c :: rest, f, h => by
    rw [matchAfter_cons] at h
    by_cases hp : pat.isPrefixOf (c :: rest)
    · rw [if_pos hp] at h
      by_cases hi : (((c :: rest).drop pat.length).takeWhile isIdChar).isEmpty
      · rw [if_pos hi] at h
        exact matchAfter_some h
      · rw [if_neg hi] at h
        cases h
        refine ⟨by simpa [List.isEmpty_iff] using hi, ?_⟩
        intro x hx
        exact List.mem_takeWhile_imp hx
    · rw [if_neg hp] at h
      exact matchAfter_some h

theorem extractFileId_some {url f : List Char}
    (h : extractFileId url = some f) : f ≠ [] ∧ ∀ c ∈ f, isIdChar c := by
  unfold extractFileId at h
  cases h1 : matchAfter ("/file/d/".toList) url with
  | some g => rw [h1] at h; cases h; exact matchAfter_some h1
  | none =>
    rw [h1] at h
    cases h2 : matchAfter ("id=".toList) url with
    | some g => rw [h2] at h; cases h; exact matchAfter_some h2
    | none => rw [h2] at h; exact matchAfter_some h

theorem isWS_false_of_isIdChar {c : Char} (h : isIdChar c = true) :
    isWS c = false := by
  by_contra hw
  rw [Bool.not_eq_false] at hw
  have hws : c = ' ' ∨ c = '\t' ∨ c = '\n' ∨ c = '\r' ∨
      c = Char.ofNat 11 ∨ c = Char.ofNat 12 := by
    simp only [isWS, Bool.or_eq_true, decide_eq_true_eq] at hw
    tauto
  rcases hws with h1 | h1 | h1 | h1 | h1 | h1 <;>
    (subst h1; exact absurd h (by decide))

theorem convertGoogleDriveUrl_wf {u : List Char} (hne : u ≠ [])
    (ht : trim u = u) :
    convertGoogleDriveUrl u ≠ [] ∧
      trim (convertGoogleDriveUrl u) = convertGoogleDriveUrl u := by
  unfold convertGoogleDriveUrl
  by_cases h1 : u.isEmpty || !listContains driveDomain u
  · rw [if_pos h1]
    exact ⟨hne, ht⟩
  · rw [if_neg h1]
    cases hfid : extractFileId u with
    | none => exact ⟨hne, ht⟩
    | some f =>
      obtain ⟨hf, hall⟩ := extractFileId_some hfid
      constructor
      · simp
      · apply trim_eq_self
        · intro a ha
          have : ("https://drive.google.com/uc?export=view&id=".toList
              ++ f).head? = some 'h' := rfl
          rw [this] at ha
          cases ha
          decide
        · intro a ha
          rw [List.getLast?_append_of_ne_nil _ hf] at ha
          have hmem : a ∈ f := by
            cases hfl : f with
            | nil => exact absurd hfl hf
            | cons x xs =>
              subst hfl
              rw [List.getLast?_eq_getLast_of_ne_nil (by simp)] at ha
              cases ha
              exact List.getLast_mem _
          exact isWS_false_of_isIdChar (hall a hmem)

/-- C7: every record the mapper constructs has non-empty name, title and
image, each already free of leading and trailing whitespace; rows that
would violate this are mapped to absence instead. -/
theorem c7_required_fields_nonempty (row : List (List Char)) (s : Speaker)
    (h : mapSpeakerRow row = some s) :
    s.name ≠ [] ∧ trim s.name = s.name ∧
      s.title ≠ [] ∧ trim s.title = s.title ∧
      s.image ≠ [] ∧ trim s.image = s.image := by
  simp only [mapSpeakerRow] at h
  split_ifs at h with h4 hg hd hl <;>
  · first
    | exact absurd h (Option.noConfusion)
    | (injection h with h2
       subst h2
       simp only [Bool.or_eq_true, List.isEmpty_iff, not_or] at hg
       obtain ⟨⟨hn, ht⟩, hi⟩ := hg
       refine ⟨hn, trim_idem _, ht, trim_idem _, ?_, ?_⟩
       · first
         | exact (convertGoogleDriveUrl_wf hi (trim_idem _)).1
         | exact hi
       · first
         | exact (convertGoogleDriveUrl_wf hi (trim_idem _)).2
         | exact trim_idem _)

/-- C7 witness: the mapper at a concrete four-cell row produces a record,
and the required-field properties hold for it. -/
theorem c7_witness :
    ("Ada".toList ≠ [] ∧ trim ("Ada".toList) = "Ada".toList ∧
        "CEO".toList ≠ [] ∧ trim ("CEO".toList) = "CEO".toList ∧
        "img.png".toList ≠ [] ∧ trim ("img.png".toList) = "img.png".toList) := by
  have h : mapSpeakerRow ["Ada".toList, "CEO".toList, "Acme".toList,
      "img.png".toList] = some
      { name := "Ada".toList, title := "CEO".toList,
        company := "Acme".toList, image := "img.png".toList,
        linkedin := none } := by decide
  simpa using c7_required_fields_nonempty _ _ h

/-- C5: a data row with fewer than four cells is mapped to absence (so the
row filter drops it without aborting the batch), and a fetch whose batch
drops every data row returns the static fallback set, which is not the empty
list. -/
theorem c5_short_rows_dropped (row : List (List Char)) (csv : List Char)
    (now : Int) (hrow : row.length < 4)
    (hall : ((parseCSVData csv).drop 1).filterMap mapSpeakerRow = []) :
    mapSpeakerRow row = none ∧
      (fetchSpeakersModel true none now (.success csv)).1 = fallbackSpeakers ∧
      fallbackSpeakers ≠ [] := by
  refine ⟨by simp [mapSpeakerRow, hrow], ?_, fallbackSpeakers_ne_nil⟩
  have heq : fetchSpeakersModel true none now (FetchOutcome.success csv) =
      fetchProceed none now (FetchOutcome.success csv) := rfl
  rw [heq]
  show (if (trim csv).isEmpty then (fallbackSpeakers, (none : Option CacheEntry))
    else
      if (parseCSVData csv).length ≤ 1 then (fallbackSpeakers, none)
      else
        if (((parseCSVData csv).drop 1).filterMap mapSpeakerRow).isEmpty
        then (fallbackSpeakers, none)
        else (((parseCSVData csv).drop 1).filterMap mapSpeakerRow,
          setCachedData
            (((parseCSVData csv).drop 1).filterMap mapSpeakerRow) now)).1
    = fallbackSpeakers
  by_cases h1 : (trim csv).isEmpty
  · rw [if_pos h1]
  · rw [if_neg h1]
    by_cases h2 : (parseCSVData csv).length ≤ 1
    · rw [if_pos h2]
    · rw [if_neg h2, hall]
      rfl

/-- C5 witness: a concrete three-cell row is dropped and a concrete batch
whose only data row has three cells falls back. -/
theorem c5_witness :
    mapSpeakerRow [['a'], ['b'], ['c']] = none ∧
      (fetchSpeakersModel true none 0
        (.success ("a,b,c,d\nx,y,z".toList))).1 = fallbackSpeakers ∧
      fallbackSpeakers ≠ [] :=
  c5_short_rows_dropped [['a'], ['b'], ['c']] ("a,b,c,d\nx,y,z".toList) 0
    (by decide) (by decide)

theorem fetchProceed_ne_nil (slot2 : Option CacheEntry) (now : Int)
    (outcome : FetchOutcome)
    (hslot : ∀ e, slot2 = some e → e.data ≠ []) :
    (fetchProceed slot2 now outcome).1 ≠ [] := by
  cases outcome with
  | failure =>
    cases slot2 with
    | none => exact fallbackSpeakers_ne_nil
    | some e => exact hslot e rfl
  | success csv =>
    show (if (trim csv).isEmpty then (fallbackSpeakers, slot2)
      else
        if (parseCSVData csv).length ≤ 1 then (fallbackSpeakers, slot2)
        else
          if (((parseCSVData csv).drop 1).filterMap mapSpeakerRow).isEmpty
          then (fallbackSpeakers, slot2)
          else (((parseCSVData csv).drop 1).filterMap mapSpeakerRow,
            setCachedData
              (((parseCSVData csv).drop 1).filterMap mapSpeakerRow) now)).1
      ≠ []
    by_cases h1 : (trim csv).isEmpty
    · rw [if_pos h1]
      exact fallbackSpeakers_ne_nil
    · rw [if_neg h1]
      by_cases h2 : (parseCSVData csv).length ≤ 1
      · rw [if_pos h2]
        exact fallbackSpeakers_ne_nil
      · rw [if_neg h2]
        by_cases h3 :
            (((parseCSVData csv).drop 1).filterMap mapSpeakerRow).isEmpty
        · rw [if_pos h3]
          exact fallbackSpeakers_ne_nil
        · rw [if_neg h3]
          simpa [List.isEmpty_iff] using h3

/-- C1: the fetch model is a total function — every input, with any fetch
outcome including failure, produces a result (the non-throwing contract) —
and under the invariant that the storage slot only ever holds a batch
written by the mapper path (hence non-empty), the result list is never
empty. -/
theorem c1_fetch_never_empty (force : Bool) (slot : Option CacheEntry)
    (now : Int) (outcome : FetchOutcome)
    (hslot : ∀ e, slot = some e → e.data ≠ []) :
    (fetchSpeakersModel force slot now outcome).1 ≠ [] := by
  unfold fetchSpeakersModel
  by_cases hf : force
  · rw [if_pos hf]
    exact fetchProceed_ne_nil none now outcome (fun e h => by cases h)
  · rw [if_neg hf]
    cases slot with
    | none =>
      simp only [getCachedData]
      exact fetchProceed_ne_nil none now outcome (fun e h => by cases h)
    | some e =>
      simp only [getCachedData]
      by_cases hfresh : now - e.timestamp < cacheDuration
      · rw [if_pos hfresh]
        exact hslot e rfl
      · rw [if_neg hfresh]
        exact fetchProceed_ne_nil none now outcome (fun e2 h => by cases h)

/-- C1 witness: the model at a concrete input with an empty slot and a
failing fetch resolves to a non-empty list. -/
theorem c1_witness :
    (fetchSpeakersModel false none 0 FetchOutcome.failure).1 ≠ [] :=
  c1_fetch_never_empty false none 0 FetchOutcome.failure
    (fun _ h => by cases h)

/-- C3: writing a non-empty batch and reading strictly inside the five
minute window returns exactly the written batch — and the fetch path then
returns it for every network outcome, so no fetch result is consulted —
while reading once the window has elapsed returns absence. -/
theorem c3_cache_write_read (data : List Speaker) (t now : Int)
    (hdata : data ≠ []) :
    (now - t < cacheDuration →
        (getCachedData (setCachedData data t) now).1 = some data ∧
        ∀ outcome,
          (fetchSpeakersModel false (setCachedData data t) now outcome).1 =
            data) ∧
      (cacheDuration ≤ now - t →
        (getCachedData (setCachedData data t) now).1 = none) := by
  constructor
  · intro hfresh
    constructor
    · simp [getCachedData, setCachedData, hfresh]
    · intro outcome
      simp [fetchSpeakersModel, getCachedData, setCachedData, hfresh]
  · intro hstale
    have : ¬ (now - t < cacheDuration) := by omega
    simp [getCachedData, setCachedData, this]

/-- C3 witness: the write-read round trip at concrete timestamps, one
strictly inside the window with a failing fetch outcome, one exactly at the
window boundary. -/
theorem c3_witness :
    (getCachedData (setCachedData fallbackSpeakers 0) 1).1 =
        some fallbackSpeakers ∧
      (fetchSpeakersModel false (setCachedData fallbackSpeakers 0) 1
          FetchOutcome.failure).1 = fallbackSpeakers ∧
      (getCachedData (setCachedData fallbackSpeakers 0) cacheDuration).1 =
        none := by
  have hne : fallbackSpeakers ≠ [] := by simp [fallbackSpeakers]
  have h1 := (c3_cache_write_read fallbackSpeakers 0 1 hne).1
    (by norm_num [cacheDuration])
  exact ⟨h1.1, h1.2 FetchOutcome.failure,
    (c3_cache_write_read fallbackSpeakers 0 cacheDuration hne).2
      (by norm_num [cacheDuration])⟩

/-- C6 (code bug evidence): with a stale entry in the slot and a failing
fetch, the function returns the static fallback set, not the stale entry:
getCachedData evicts the expired entry during the freshness check, so the
catch-block read of the store finds nothing — contradicting the claim that
a stale entry is preferred over the fallback. -/
theorem c6_stale_entry_not_returned :
    (fetchSpeakersModel false (some ⟨fallbackSpeakers.take 1, 0⟩)
        cacheDuration FetchOutcome.failure).1 = fallbackSpeakers ∧
      fallbackSpeakers.take 1 ≠ fallbackSpeakers := by
  constructor
  · have : ¬ ((cacheDuration : Int) - 0 < cacheDuration) := by omega
    simp [fetchSpeakersModel, getCachedData, fetchProceed, this]
  · intro h
    have := congrArg List.length h
    simp [fallbackSpeakers] at this

/-- C4: the row holding a quoted name with an embedded comma, a quoted title
with an embedded line break, and a bare image cell parses to exactly three
cells, with the embedded line break collapsed to a single space. -/
theorem c4_quoted_multiline_cell :
    parseCSVData ("\"Jane, A\",\"CEO\nGlobal Co\",img.png".toList) =
      [["Jane, A".toList, "CEO Global Co".toList, "img.png".toList]] := by
  decide

theorem scanCSV_nil (cur : List Char) (q : Bool) :
    scanCSV [] cur q = ⟨[], cur, q, []⟩ := rfl

theorem scanCSV_qq (rest cur : List Char) :
    scanCSV ('"' :: '"' :: rest) cur true = scanCSV rest (cur ++ ['"']) true :=
  rfl

theorem scanCSV_quote_notq (rest cur : List Char) :
    scanCSV ('"' :: rest) cur false = scanCSV rest cur true := by
  cases rest with
  | nil => rfl
  | cons y rest2 =>
    by_cases hy : y = '"'
    · subst hy; rfl
    · simp [scanCSV, hy]

theorem scanCSV_quote_inq (rest cur : List Char) (h : rest.head? ≠ some '"') :
    scanCSV ('"' :: rest) cur true = scanCSV rest cur false := by
  cases rest with
  | nil => rfl
  | cons y rest2 =>
    by_cases hy : y = '"'
    · subst hy; simp at h
    · simp [scanCSV, hy]

theorem scanCSV_other (x : Char) (rest cur : List Char) (q : Bool)
    (hx : x ≠ '"') :
    scanCSV (x :: rest) cur q =
      if x = ',' && !q then
        ⟨trim cur :: (scanCSV rest [] q).fields, (scanCSV rest [] q).current,
          (scanCSV rest [] q).inQuotes, (scanCSV rest [] q).remaining⟩
      else if x = '\r' && !q then scanCSV rest cur q
      else if x = '\n' && !q then ⟨[], cur, q, x :: rest⟩
      else scanCSV rest (cur ++ [x]) q := by
  cases rest with
  | nil => simp [scanCSV, hx]
  | cons y rest2 => simp [scanCSV, hx]

theorem scanCSV_append_comma :
    ∀ (l cur : List Char) (q : Bool) (fs : List (List Char)) (c : List Char),
      scanCSV l cur q = ⟨fs, c, false, []⟩ →
      scanCSV (l ++ [',']) cur q = ⟨fs ++ [trim c], [], false, []⟩
  | [], cur, q, fs, c, h => by
    rw [scanCSV_nil] at h
    simp only [ScanResult.mk.injEq] at h
    obtain ⟨h1, h2, h3, -⟩ := h
    subst h1; subst h2; subst h3
    show scanCSV [','] cur false = ⟨[] ++ [trim cur], [], false, []⟩
    rfl
  | x :: rest, cur, q, fs, c, h => by
    by_cases hx : x = '"'
    · subst hx
      cases q with
      | false =>
        rw [scanCSV_quote_notq] at h
        have hrec := scanCSV_append_comma rest cur true fs c h
        show scanCSV ('"' :: (rest ++ [','])) cur false = _
        rw [scanCSV_quote_notq]
        exact hrec
      | true =>
        cases rest with
        | nil =>
          rw [scanCSV_quote_inq _ _ (by simp), scanCSV_nil] at h
          simp only [ScanResult.mk.injEq, and_true] at h
          obtain ⟨h1, h2⟩ := h
          subst h1; subst h2
          show scanCSV ('"' :: [','] ) cur true = ⟨[] ++ [trim cur], [], false, []⟩
          rw [scanCSV_quote_inq _ _ (by decide)]
          rfl
        | cons y rest2 =>
          by_cases hy : y = '"'
          · subst hy
            rw [scanCSV_qq] at h
            have hrec := scanCSV_append_comma rest2 (cur ++ ['"']) true fs c h
            show scanCSV ('"' :: '"' :: (rest2 ++ [','])) cur true = _
            rw [scanCSV_qq]
            exact hrec
          · rw [scanCSV_quote_inq _ _ (by simp [hy])] at h
            have hrec := scanCSV_append_comma (y :: rest2) cur false fs c h
            show scanCSV ('"' :: ((y :: rest2) ++ [','])) cur true = _
            rw [List.cons_append, scanCSV_quote_inq _ _ (by simp [hy])]
            exact hrec
    · rw [scanCSV_other x rest cur q hx] at h
      show scanCSV (x :: (rest ++ [','])) cur q = _
      rw [scanCSV_other x (rest ++ [',']) cur q hx]
      by_cases hc : (x = ',' && !q) = true
      · rw [if_pos hc] at h ⊢
        have hq : q = false := by
          cases q
          · rfl
          · simp at hc
        subst hq
        cases hsr : scanCSV rest [] false with
        | mk f cu iq rem =>
          rw [hsr] at h
          simp only [ScanResult.mk.injEq] at h
          obtain ⟨h1, h2, h3, h4⟩ := h
          subst h2; subst h3; subst h4; subst h1
          have hrec := scanCSV_append_comma rest [] false f cu hsr
          rw [hrec]
          simp
      · rw [if_neg hc] at h ⊢
        by_cases hcr : (x = '\r' && !q) = true
        · rw [if_pos hcr] at h ⊢
          exact scanCSV_append_comma rest cur q fs c h
        · rw [if_neg hcr] at h ⊢
          by_cases hn : (x = '\n' && !q) = true
          · rw [if_pos hn] at h
            simp only [ScanResult.mk.injEq] at h
            obtain ⟨-, -, -, h4⟩ := h
            exact absurd h4 (by simp)
          · rw [if_neg hn] at h ⊢
            exact scanCSV_append_comma rest (cur ++ [x]) q fs c h
termination_by l _ _ _ _ _ => l.length

/-- C10: for any line whose scan runs to the end outside quotes (so that an
appended comma is a comma outside quotes ending an empty last field), the
sold-out line function drops the trailing empty cell — returning one cell
fewer than the comma-separated field count — while the speakers line
function keeps it, returning the full count with an empty final cell. -/
theorem c10_trailing_empty_cell (l : List Char) (fs : List (List Char))
    (cur : List Char)
    (h : scanCSV l [] false = ⟨fs, cur, false, []⟩) :
    soldOutParseCSVLine (l ++ [',']) = fs ++ [trim cur] ∧
      parseCSVLine (l ++ [',']) = (fs ++ [trim cur, []]).map normalizeField ∧
      (parseCSVLine (l ++ [','])).length =
        (soldOutParseCSVLine (l ++ [','])).length + 1 := by
  have hs := scanCSV_append_comma l [] false fs cur h
  refine ⟨?_, ?_, ?_⟩
  · simp [soldOutParseCSVLine, hs]
  · simp only [parseCSVLine, hs]
    have : trim ([] : List Char) = [] := rfl
    simp [this]
  · simp [parseCSVLine, soldOutParseCSVLine, hs]

/-- C10 witness: the concrete line a,b, — the sold-out module returns two
cells, the speakers module three with an empty last cell. -/
theorem c10_witness :
    soldOutParseCSVLine ("a,b,".toList) = [['a']] ++ [trim ['b']] ∧
      parseCSVLine ("a,b,".toList) =
        ([['a']] ++ [trim ['b'], []]).map normalizeField ∧
      (parseCSVLine ("a,b,".toList)).length =
        (soldOutParseCSVLine ("a,b,".toList)).length + 1 :=
  c10_trailing_empty_cell ("a,b".toList) [['a']] ['b'] (by decide)

/-- C8: whenever the sold-out sheet has at least two non-blank lines and the
header names the Sold Out column at some index, the resulting flag is true
exactly when that cell of the first data row exists and its trimmed value
upper-cases to the token TRUE; an absent cell or any other value gives
false. -/
theorem c8_sold_out_flag (csv : List Char) (i : Nat)
    (hlen : ¬ (soldOutLines csv).length < 2)
    (hidx : (soldOutParseCSVLine ((soldOutLines csv).getD 0 [])).findIdx?
        (fun h => trim (h.map jsToLower) = "sold out".toList) = some i) :
    (fetchSoldOutStatusModel (some csv) = true ↔
      ∃ cell,
        (soldOutParseCSVLine ((soldOutLines csv).getD 1 [])).get? i =
            some cell ∧
          (trim cell).map jsToUpper = "TRUE".toList) := by
  show (if (soldOutLines csv).length < 2 then false
    else
      match (soldOutParseCSVLine ((soldOutLines csv).getD 0 [])).findIdx?
          (fun h => trim (h.map jsToLower) = "sold out".toList) with
      | none => false
      | some i =>
        (((soldOutParseCSVLine ((soldOutLines csv).getD 1 [])).get? i).map
            (fun cell => (trim cell).map jsToUpper) =
          some ("TRUE".toList) : Bool)) = true ↔ _
  rw [if_neg hlen, hidx]
  simp [Option.map_eq_some']

/-- C8 witness: a concrete sheet with the flag cell holding true in lower
case maps to true. -/
theorem c8_witness :
    fetchSoldOutStatusModel (some ("Event,Sold Out\nX,true".toList)) = true := by
  have h := c8_sold_out_flag ("Event,Sold Out\nX,true".toList) 1
    (by decide) (by decide)
  exact h.mpr ⟨"true".toList, by decide, by decide⟩

theorem crlfToLf_cons_ne (c : Char) (rest : List Char) (hc : c ≠ '\r') :
    crlfToLf (c :: rest) = c :: crlfToLf rest := by
  cases rest with
  | nil => simp [crlfToLf, hc]
  | cons y rest2 => simp [crlfToLf, hc]

theorem crlfToLf_no_cr : ∀ l : List Char, '\r' ∉ crlfToLf l
  | [] => by simp [crlfToLf]
  | c :: rest => by
    by_cases hc : c = '\r'
    · subst hc
      cases rest with
      | nil => decide
      | cons y rest2 =>
        by_cases hy : y = '\n'
        · subst hy
          rw [show crlfToLf ('\r' :: '\n' :: rest2) = '\n' :: crlfToLf rest2
            from rfl]
          intro hmem
          rcases List.mem_cons.mp hmem with h | h
          · simp at h
          · exact crlfToLf_no_cr rest2 h
        · rw [show crlfToLf ('\r' :: y :: rest2) =
              '\n' :: crlfToLf (y :: rest2) from by simp [crlfToLf, hy]]
          intro hmem
          rcases List.mem_cons.mp hmem with h | h
          · simp at h
          · exact crlfToLf_no_cr (y :: rest2) h
    · rw [crlfToLf_cons_ne c rest hc]
      intro hmem
      rcases List.mem_cons.mp hmem with h | h
      · exact hc h.symm
      · exact crlfToLf_no_cr rest h
termination_by l => l.length

theorem crlfToLf_eq_self : ∀ l : List Char, '\r' ∉ l → crlfToLf l = l
  | [], _ => rfl
  | c :: rest, h => by
    have hc : c ≠ '\r' := fun e => h (by simp [e])
    have ht : '\r' ∉ rest := fun m => h (List.mem_cons_of_mem _ m)
    rw [crlfToLf_cons_ne c rest hc, crlfToLf_eq_self rest ht]

theorem collapseLfAux_cons_ne (skip : Bool) (c : Char) (rest : List Char)
    (hc : c ≠ '\n') :
    collapseLfAux skip (c :: rest) = c :: collapseLfAux false rest := by
  simp [collapseLfAux, hc]

theorem collapseLfAux_cons_lf (skip : Bool) (rest : List Char) :
    collapseLfAux skip ('\n' :: rest) =
      if skip then collapseLfAux true rest
      else ' ' :: collapseLfAux true rest := by
  cases skip <;> rfl

theorem collapseLfAux_no_lf : ∀ (skip : Bool) (l : List Char),
    '\n' ∉ collapseLfAux skip l
  | _, [] => by simp [collapseLfAux]
  | skip, c :: rest => by
    by_cases hc : c = '\n'
    · subst hc
      rw [collapseLfAux_cons_lf]
      cases skip with
      | true =>
        rw [if_pos rfl]
        exact collapseLfAux_no_lf true rest
      | false =>
        rw [if_neg (by simp)]
        intro hmem
        rcases List.mem_cons.mp hmem with h | h
        · simp at h
        · exact collapseLfAux_no_lf true rest h
    · rw [collapseLfAux_cons_ne skip c rest hc]
      intro hmem
      rcases List.mem_cons.mp hmem with h | h
      · exact hc h.symm
      · exact collapseLfAux_no_lf false rest h

theorem collapseLfAux_eq_self : ∀ (skip : Bool) (l : List Char),
    '\n' ∉ l → collapseLfAux skip l = l
  | _, [], _ => rfl
  | skip, c :: rest, h => by
    have hc : c ≠ '\n' := fun e => h (by simp [e])
    have ht : '\n' ∉ rest := fun m => h (List.mem_cons_of_mem _ m)
    rw [collapseLfAux_cons_ne skip c rest hc, collapseLfAux_eq_self false rest ht]

theorem mem_collapseLfAux : ∀ (skip : Bool) (l : List Char) (a : Char),
    a ∈ collapseLfAux skip l → a ∈ l ∨ a = ' '
  | _, [], a, h => by simp [collapseLfAux] at h
  | skip, c :: rest, a, h => by
    by_cases hc : c = '\n'
    · subst hc
      rw [collapseLfAux_cons_lf] at h
      cases skip with
      | true =>
        rw [if_pos rfl] at h
        rcases mem_collapseLfAux true rest a h with h2 | h2
        · exact Or.inl (List.mem_cons_of_mem _ h2)
        · exact Or.inr h2
      | false =>
        rw [if_neg (by simp)] at h
        rcases List.mem_cons.mp h with h2 | h2
        · exact Or.inr h2
        · rcases mem_collapseLfAux true rest a h2 with h3 | h3
          · exact Or.inl (List.mem_cons_of_mem _ h3)
          · exact Or.inr h3
    · rw [collapseLfAux_cons_ne skip c rest hc] at h
      rcases List.mem_cons.mp h with h2 | h2
      · exact Or.inl (by simp [h2])
      · rcases mem_collapseLfAux false rest a h2 with h3 | h3
        · exact Or.inl (List.mem_cons_of_mem _ h3)
        · exact Or.inr h3

theorem normalizeField_trim_fixed (f : List Char) :
    trim (normalizeField f) = normalizeField f := by
  simp only [normalizeField]
  exact trim_idem _

theorem normalizeField_no_lf (f : List Char) : '\n' ∉ normalizeField f := by
  intro h
  exact collapseLfAux_no_lf false _ (mem_trim h)

theorem normalizeField_no_cr (f : List Char) : '\r' ∉ normalizeField f := by
  intro h
  rcases mem_collapseLfAux false _ _ (mem_trim h) with h2 | h2
  · exact crlfToLf_no_cr _ h2
  · simp at h2

theorem normalizeField_cellOK (f : List Char) : cellOK (normalizeField f) :=
  ⟨normalizeField_trim_fixed f, normalizeField_no_lf f, normalizeField_no_cr f⟩

theorem normalizeField_id {c : List Char} (h1 : trim c = c) (h2 : '\n' ∉ c)
    (h3 : '\r' ∉ c) (h4 : quoteBracketed c = false) : normalizeField c = c := by
  simp only [normalizeField, h1]
  have h4b : (c.head? = some '"' && c.getLast? = some '"') = false := h4
  rw [h4b]
  simp only [Bool.false_eq_true, if_false]
  rw [crlfToLf_eq_self c h3]
  show trim (collapseLfAux false c) = c
  rw [collapseLfAux_eq_self false c h2, h1]

theorem doubleQ_cons_quote (rest : List Char) :
    doubleQ ('"' :: rest) = '"' :: '"' :: doubleQ rest := rfl

theorem doubleQ_cons_ne (c : Char) (rest : List Char) (hc : c ≠ '"') :
    doubleQ (c :: rest) = c :: doubleQ rest := by
  simp [doubleQ, hc]

theorem mem_doubleQ : ∀ {a : Char} {c : List Char}, a ∈ doubleQ c → a ∈ c
  | a, [], h => by simp [doubleQ] at h
  | a, x :: rest, h => by
    by_cases hx : x = '"'
    · subst hx
      rw [doubleQ_cons_quote] at h
      rcases List.mem_cons.mp h with h2 | h2
      · simp [h2]
      · rcases List.mem_cons.mp h2 with h3 | h3
        · simp [h3]
        · exact List.mem_cons_of_mem _ (mem_doubleQ h3)
    · rw [doubleQ_cons_ne x rest hx] at h
      rcases List.mem_cons.mp h with h2 | h2
      · simp [h2]
      · exact List.mem_cons_of_mem _ (mem_doubleQ h2)

theorem countQuotes_doubleQ : ∀ c : List Char,
    countQuotes (doubleQ c) = 2 * countQuotes c
  | [] => rfl
  | x :: rest => by
    by_cases hx : x = '"'
    · subst hx
      rw [doubleQ_cons_quote, countQuotes_cons, countQuotes_cons,
        countQuotes_cons, countQuotes_doubleQ rest]
      simp
      omega
    · rw [doubleQ_cons_ne x rest hx, countQuotes_cons, countQuotes_cons,
        countQuotes_doubleQ rest]
      simp [hx]

theorem scanCSV_append_plain :
    ∀ (cell rest cur : List Char),
      (∀ a ∈ cell, a ≠ ',' ∧ a ≠ '"' ∧ a ≠ '\r' ∧ a ≠ '\n') →
      scanCSV (cell ++ rest) cur false = scanCSV rest (cur ++ cell) false
  | [], rest, cur, _ => by simp
  | x :: cell2, rest, cur, h => by
    obtain ⟨hc, hq, hr, hn⟩ := h x (List.mem_cons_self x cell2)
    have h2 : ∀ a ∈ cell2, a ≠ ',' ∧ a ≠ '"' ∧ a ≠ '\r' ∧ a ≠ '\n' :=
      fun a ha => h a (List.mem_cons_of_mem _ ha)
    rw [List.cons_append, scanCSV_other x _ cur false hq,
      if_neg (by simp [hc]), if_neg (by simp [hr]), if_neg (by simp [hn]),
      scanCSV_append_plain cell2 rest (cur ++ [x]) h2]
    simp

theorem scanCSV_doubleQ :
    ∀ (cell rest cur : List Char), rest.head? ≠ some '"' →
      scanCSV (doubleQ cell ++ '"' :: rest) cur true =
        scanCSV rest (cur ++ cell) false
  | [], rest, cur, h => by
    rw [show doubleQ [] = [] from rfl, List.nil_append,
      scanCSV_quote_inq rest cur h]
    simp
  | x :: cell2, rest, cur, h => by
    by_cases hx : x = '"'
    · subst hx
      rw [doubleQ_cons_quote, List.cons_append, List.cons_append, scanCSV_qq,
        scanCSV_doubleQ cell2 rest (cur ++ ['"']) h]
      simp
    · rw [doubleQ_cons_ne x cell2 hx, List.cons_append,
        scanCSV_other x _ cur true hx]
      simp only [Bool.not_true, Bool.and_false, Bool.false_eq_true, if_false]
      rw [scanCSV_doubleQ cell2 rest (cur ++ [x]) h]
      simp

theorem scanCSV_serializeCell (c rest cur : List Char) (hok : cellOK c)
    (hrest : rest.head? ≠ some '"') :
    scanCSV (serializeCell c ++ rest) cur false =
      scanCSV rest (cur ++ c) false := by
  unfold serializeCell
  by_cases hq : (c.contains ',' || c.contains '"') = true
  · rw [if_pos hq, List.cons_append, List.append_assoc, List.singleton_append,
      scanCSV_quote_notq]
    exact scanCSV_doubleQ c rest cur hrest
  · rw [if_neg hq]
    apply scanCSV_append_plain
    intro a ha
    simp only [Bool.or_eq_true, not_or] at hq
    obtain ⟨hq1, hq2⟩ := hq
    refine ⟨?_, ?_, ?_, ?_⟩
    · intro e; subst e; exact hq1 (by simpa using ha)
    · intro e; subst e; exact hq2 (by simpa using ha)
    · intro e; subst e; exact hok.2.2 ha
    · intro e; subst e; exact hok.2.1 ha

theorem serializeRow_cons (c : List Char) (c2 : List Char)
    (cs : List (List Char)) :
    serializeRow (c :: c2 :: cs) = serializeCell c ++ ',' :: serializeRow (c2 :: cs) :=
  rfl

theorem scanCSV_serializeRow :
    ∀ (cells : List (List Char)), cells ≠ [] →
      (∀ c ∈ cells, cellOK c) →
      scanCSV (serializeRow cells) [] false =
        ⟨cells.dropLast, cells.getLastD [], false, []⟩
  | [], hne, _ => absurd rfl hne
  | [c], _, hok => by
    have hc := hok c (by simp)
    rw [show serializeRow [c] = serializeCell c from rfl,
      ← List.append_nil (serializeCell c),
      scanCSV_serializeCell c [] [] hc (by simp), scanCSV_nil]
    simp [List.getLastD]
  | c :: c2 :: cs, _, hok => by
    have hc := hok c (by simp)
    rw [serializeRow_cons,
      scanCSV_serializeCell c (',' :: serializeRow (c2 :: cs)) [] hc
        (by simp),
      scanCSV_other ',' _ _ false (by decide), if_pos (by decide),
      scanCSV_serializeRow (c2 :: cs) (by simp)
        (fun x hx => hok x (List.mem_cons_of_mem _ hx))]
    simp only [ScanResult.mk.injEq, and_true]
    refine ⟨?_, ?_⟩
    · rw [List.nil_append, hc.1, List.dropLast_cons₂]
    · rfl

theorem parseCSVLine_serializeRow (cells : List (List Char))
    (hne : cells ≠ []) (hok : ∀ c ∈ cells, cellOK c)
    (hqb : ∀ c ∈ cells, quoteBracketed c = false) :
    parseCSVLine (serializeRow cells) = cells := by
  unfold parseCSVLine
  rw [scanCSV_serializeRow cells hne hok]
  show List.map normalizeField (cells.dropLast ++ [trim (cells.getLastD [])]) =
    cells
  have hlast : cells.getLastD [] = cells.getLast hne := by
    rw [List.getLastD_eq_getLast?, List.getLast?_eq_getLast_of_ne_nil hne]
    rfl
  have hmem : cells.getLast hne ∈ cells := List.getLast_mem hne
  have htr : trim (cells.getLastD []) = cells.getLastD [] := by
    rw [hlast]
    exact (hok _ hmem).1
  rw [htr]
  have hsplit : cells.dropLast ++ [cells.getLastD []] = cells := by
    rw [hlast]
    exact List.dropLast_append_getLast hne
  rw [hsplit]
  have : ∀ c ∈ cells, normalizeField c = c := fun c hc =>
    normalizeField_id (hok c hc).1 (hok c hc).2.1 (hok c hc).2.2 (hqb c hc)
  rw [List.map_congr_left this]
  simp

theorem no_lf_serializeCell {c : List Char} (h : '\n' ∉ c) :
    '\n' ∉ serializeCell c := by
  unfold serializeCell
  by_cases hq : (c.contains ',' || c.contains '"') = true
  · rw [if_pos hq]
    intro hm
    rcases List.mem_cons.mp hm with h2 | h2
    · simp at h2
    · rcases List.mem_append.mp h2 with h3 | h3
      · exact h (mem_doubleQ h3)
      · simp at h3
  · rw [if_neg hq]
    exact h

theorem no_lf_serializeRow :
    ∀ (cells : List (List Char)), (∀ c ∈ cells, '\n' ∉ c) →
      '\n' ∉ serializeRow cells
  | [], _ => by simp [serializeRow]
  | [c], h => no_lf_serializeCell (h c (by simp))
  | c :: c2 :: cs, h => by
    rw [serializeRow_cons]
    intro hm
    rcases List.mem_append.mp hm with h2 | h2
    · exact no_lf_serializeCell (h c (by simp)) h2
    · rcases List.mem_cons.mp h2 with h3 | h3
      · simp at h3
      · exact no_lf_serializeRow (c2 :: cs)
          (fun x hx => h x (List.mem_cons_of_mem _ hx)) h3

theorem countQuotes_serializeCell_even (c : List Char) :
    countQuotes (serializeCell c) % 2 = 0 := by
  unfold serializeCell
  by_cases hq : (c.contains ',' || c.contains '"') = true
  · rw [if_pos hq, countQuotes_cons, countQuotes_append,
      countQuotes_doubleQ, countQuotes_cons]
    have h0 : countQuotes ([] : List Char) = 0 := rfl
    rw [h0, if_pos rfl]
    omega
  · rw [if_neg hq]
    simp only [Bool.or_eq_true, not_or] at hq
    have : countQuotes c = 0 := by
      apply List.countP_eq_zero.mpr
      intro a ha hquote
      simp only [decide_eq_true_eq] at hquote
      subst hquote
      exact hq.2 (by simpa using ha)
    omega

theorem countQuotes_serializeRow_even :
    ∀ cells : List (List Char), countQuotes (serializeRow cells) % 2 = 0
  | [] => rfl
  | [c] => countQuotes_serializeCell_even c
  | c :: c2 :: cs => by
    rw [serializeRow_cons, countQuotes_append, countQuotes_cons]
    have h1 := countQuotes_serializeCell_even c
    have h2 := countQuotes_serializeRow_even (c2 :: cs)
    simp only [show (',' = '"') = False from by simp, if_false]
    omega

theorem splitOnChar_no_sep (sep : Char) :
    ∀ l : List Char, sep ∉ l → splitOnChar sep l = [l]
  | [], _ => rfl
  | c :: rest, h => by
    have hc : c ≠ sep := fun e => h (by simp [e])
    have ht : sep ∉ rest := fun m => h (List.mem_cons_of_mem _ m)
    rw [splitOnChar_cons, if_neg hc, splitOnChar_no_sep sep rest ht]

theorem splitOnChar_append_cons (sep : Char) :
    ∀ (a b : List Char), sep ∉ a →
      splitOnChar sep (a ++ sep :: b) = a :: splitOnChar sep b
  | [], b, _ => by
    rw [List.nil_append, splitOnChar_cons, if_pos rfl]
  | c :: a2, b, h => by
    have hc : c ≠ sep := fun e => h (by simp [e])
    have ht : sep ∉ a2 := fun m => h (List.mem_cons_of_mem _ m)
    rw [List.cons_append, splitOnChar_cons, if_neg hc,
      splitOnChar_append_cons sep a2 b ht]

theorem splitOnChar_csvSerialize :
    ∀ grid : List (List (List Char)), grid ≠ [] →
      (∀ r ∈ grid, '\n' ∉ serializeRow r) →
      splitOnChar '\n' (csvSerialize grid) = grid.map serializeRow
  | [], hg, _ => absurd rfl hg
  | [r], _, h => by
    rw [show csvSerialize [r] = serializeRow r from rfl,
      splitOnChar_no_sep '\n' _ (h r (by simp))]
    rfl
  | r :: r2 :: rs, _, h => by
    rw [show csvSerialize (r :: r2 :: rs) =
        serializeRow r ++ '\n' :: csvSerialize (r2 :: rs) from rfl,
      splitOnChar_append_cons '\n' _ _ (h r (by simp)),
      splitOnChar_csvSerialize (r2 :: rs) (by simp)
        (fun x hx => h x (List.mem_cons_of_mem _ hx))]
    rfl

theorem buildLines_all_even :
    ∀ L : List (List Char), (∀ l ∈ L, countQuotes l % 2 = 0) →
      buildLines L [] = L
  | [], _ => rfl
  | l :: rest, h => by
    rw [buildLines_cons]
    rw [if_pos]
    · rw [buildLines_all_even rest (fun x hx => h x (List.mem_cons_of_mem _ hx))]
      simp
    · simpa using h l (by simp)

theorem countQuotes_eq_zero_of_trim_nil {l : List Char} (h : trim l = []) :
    countQuotes l = 0 := by
  apply List.countP_eq_zero.mpr
  intro a ha hq
  simp only [decide_eq_true_eq] at hq
  subst hq
  have := all_ws_of_trim_eq_nil h _ ha
  exact absurd this (by decide)

theorem buildLines_eq_nil :
    ∀ (L : List (List Char)) (cur : List Char),
      buildLines L cur = [] → L = [] ∧ trim cur = []
  | [], cur, h => by
    rw [buildLines_nil] at h
    by_cases he : (trim cur).isEmpty
    · exact ⟨rfl, by simpa [List.isEmpty_iff] using he⟩
    · rw [if_neg he] at h
      simp at h
  | l :: rest, cur, h => by
    rw [buildLines_cons] at h
    by_cases heven :
        countQuotes (if cur.isEmpty then l else cur ++ '\n' :: l) % 2 = 0
    · rw [if_pos heven] at h
      simp at h
    · rw [if_neg heven] at h
      obtain ⟨-, h2⟩ := buildLines_eq_nil rest _ h
      exact absurd (by rw [countQuotes_eq_zero_of_trim_nil h2]) heven

theorem parseCSVData_ne_nil (t : List Char) : parseCSVData t ≠ [] := by
  unfold parseCSVData
  intro h
  rw [List.map_eq_nil_iff] at h
  obtain ⟨h1, -⟩ := buildLines_eq_nil _ _ h
  exact splitOnChar_ne_nil '\n' t h1

theorem parseCSVData_row_ne_nil {t : List Char} {row : List (List Char)}
    (h : row ∈ parseCSVData t) : row ≠ [] := by
  unfold parseCSVData at h
  rcases List.mem_map.mp h with ⟨line, -, rfl⟩
  simp [parseCSVLine]

theorem parseCSVData_cellOK {t : List Char} {row : List (List Char)}
    {cell : List Char} (hrow : row ∈ parseCSVData t) (hcell : cell ∈ row) :
    cellOK cell := by
  unfold parseCSVData at hrow
  rcases List.mem_map.mp hrow with ⟨line, -, rfl⟩
  simp only [parseCSVLine] at hcell
  rcases List.mem_map.mp hcell with ⟨f, -, rfl⟩
  exact normalizeField_cellOK f

theorem csvSerialize_roundTrip (grid : List (List (List Char)))
    (hg : grid ≠ []) (hrows : ∀ r ∈ grid, r ≠ [])
    (hok : ∀ r ∈ grid, ∀ c ∈ r, cellOK c)
    (hqb : ∀ r ∈ grid, ∀ c ∈ r, quoteBracketed c = false) :
    parseCSVData (csvSerialize grid) = grid := by
  unfold parseCSVData
  rw [splitOnChar_csvSerialize grid hg
      (fun r hr => no_lf_serializeRow r (fun c hc => (hok r hr c hc).2.1)),
    buildLines_all_even _ (by
      intro l hl
      rcases List.mem_map.mp hl with ⟨r, hr, rfl⟩
      exact countQuotes_serializeRow_even r),
    List.map_map]
  have hcongr : ∀ r ∈ grid, (parseCSVLine ∘ serializeRow) r = r := fun r hr =>
    parseCSVLine_serializeRow r (hrows r hr) (hok r hr) (hqb r hr)
  rw [List.map_congr_left hcongr]
  simp

/-- C9 amended: parsing, serializing the resulting grid with the standard
CSV serializer, and parsing again returns exactly the first parse, for
every text none of whose parsed cells both starts and ends with a quote
character (the condition the counterexample shows is necessary: on such a
cell the second parse strips one more quote layer). -/
theorem c9_roundtrip_no_quote_bracket (t : List Char)
    (h : ∀ row ∈ parseCSVData t, ∀ cell ∈ row, quoteBracketed cell = false) :
    parseCSVData (csvSerialize (parseCSVData t)) = parseCSVData t :=
  csvSerialize_roundTrip (parseCSVData t) (parseCSVData_ne_nil t)
    (fun _ hr => parseCSVData_row_ne_nil hr)
    (fun _ hr _ hc => parseCSVData_cellOK hr hc) h

/-- C9 counterexample: the well-formed CSV text made of five quotes, the
letter x, and five quotes — a single RFC-4180 quoted field — parses to the
single cell quote-x-quote, whose serialization reparses to the cell x, so
parse of serialize of parse differs from parse. -/
theorem c9_counterexample :
    parseCSVData (csvSerialize (parseCSVData
        ("\"\"\"\"\"x\"\"\"\"\"".toList))) ≠
      parseCSVData ("\"\"\"\"\"x\"\"\"\"\"".toList) := by decide

/-- C9 witness: a concrete two-row text with a quoted embedded comma
round-trips unchanged. -/
theorem c9_witness :
    parseCSVData (csvSerialize (parseCSVData ("a,\"b,c\"\nd,e".toList))) =
      parseCSVData ("a,\"b,c\"\nd,e".toList) :=
  c9_roundtrip_no_quote_bracket ("a,\"b,c\"\nd,e".toList) (by decide)

end Elevate
